import Mathlib

/-!
# Verification of the `ott` solver specification

The repository's visible slice contains the tutorial
`docs/tutorials/tracking_progress.ipynb` (with recorded outputs) and CI
configuration; the solver engine itself (`ott.solvers.linear.sinkhorn`,
`ott.solvers.linear.sinkhorn_lr`, `ott.solvers.quadratic.gromov_wasserstein`)
is not part of the slice.  Following the specification (`spec.md`), we build a
shallow, executable model of the three engines over exact rationals:

* the Sinkhorn fixed-point iteration is modelled in the scaling domain
  (`f`, `g` hold the multiplicative scalings; the spec's log-domain dual
  potentials are `ε·log` of these values — over `ℚ` the iteration is computed
  multiplicatively, which is the same fixed point expressed without `exp`);
* the cost→kernel map `exp(-c/ε)` is replaced by the strictly positive,
  decreasing rational surrogate `1/(1 + c/ε)` (the claims under study concern
  control flow, masking, validation and the progress channel, none of which
  depend on the exact shape of this map);
* the progress channel is an explicit callback argument threaded through the
  iteration, producing a separate observation list that the numeric state
  never reads — the model of `jax.experimental.io_callback`.

All definitions are computable so that concrete runs can be evaluated.
-/

namespace OTT

/-! ## Vector and matrix helpers (dense lists of rationals) -/

/-- Dot product of two rational vectors. -/
def dotQ (x y : List ℚ) : ℚ := (List.zipWith (· * ·) x y).sum

/-- Matrix–vector product: `M` is a list of rows. -/
def matVec (M : List (List ℚ)) (v : List ℚ) : List ℚ := M.map (fun r => dotQ r v)

/-- Entrywise division of vectors (`ℚ` division, so `x / 0 = 0`). -/
def divVec (x y : List ℚ) : List ℚ := List.zipWith (· / ·) x y

/-- Entrywise product of vectors. -/
def mulVec (x y : List ℚ) : List ℚ := List.zipWith (· * ·) x y

/-- L1 distance between two vectors of equal length. -/
def l1dist (x y : List ℚ) : ℚ := (List.zipWith (fun a b => |a - b|) x y).sum

/-- All entries of a vector are nonnegative. -/
def vecNonneg (v : List ℚ) : Prop := ∀ x ∈ v, 0 ≤ x

/-- All entries of a matrix are nonnegative. -/
def matNonneg (M : List (List ℚ)) : Prop := ∀ r ∈ M, vecNonneg r

/-- Ceiling division, used to count error-check checkpoints. -/
def ceilDiv (t k : ℕ) : ℕ := (t + k - 1) / k

/-- Transpose of a dense matrix (rows of length `m` assumed; missing
entries read as `0`). -/
def transposeQ (M : List (List ℚ)) : List (List ℚ) :=
  (List.range (M.getD 0 []).length).map (fun j => M.map (fun r => r.getD j 0))

/-! ## Linear problem and Sinkhorn engine -/

/-- Modelled from the spec (§3 `LinearProblem`): marginal weight vectors `a`,
`b`, a materialized cost accessor `C`, and regularization strength `eps`.
The solver source is not in the visible slice. -/
structure LinearProblem where
  C : List (List ℚ)
  a : List ℚ
  b : List ℚ
  eps : ℚ
  deriving Repr, DecidableEq

/-- Modelled from the spec (§4.1): the kernel induced by the cost and `ε`.
The source's `exp (-c/ε)` is replaced by the rational surrogate
`1/(1 + c/ε)`, strictly positive and decreasing in `c` for `c ≥ 0`. -/
def kernelOf (p : LinearProblem) : List (List ℚ) :=
  p.C.map (fun r => r.map (fun c => 1 / (1 + c / p.eps)))

/-- Solver configuration for the Sinkhorn engines (§4.1): iteration budget,
error-check cadence, convergence threshold. -/
structure SinkhornConfig where
  maxIterations : ℕ
  innerIterations : ℕ
  threshold : ℚ
  deriving Repr, DecidableEq

/-- Modelled from the spec (§3 `SinkhornState`): the dual potentials in
scaling form (`f`, `g` are the multiplicative scalings; the log-domain
potentials of the spec are `ε·log` of these), the recorded error history,
the converged flag and the raw iteration count. -/
structure SinkhornState where
  f : List ℚ
  g : List ℚ
  errors : List ℚ
  converged : Bool
  it : ℕ
  deriving Repr, DecidableEq

/-- One raw Sinkhorn update: `f ← a / (K g)`, then `g ← b / (Kᵗ f)`. -/
def sinkhornUpdate (p : LinearProblem) (s : SinkhornState) : SinkhornState :=
  let K := kernelOf p
  let f' := divVec p.a (matVec K s.g)
  let g' := divVec p.b (matVec (transposeQ K) f')
  { s with f := f', g := g', it := s.it + 1 }

/-- One masked inner iteration (§4.1, §5): once converged the update is a
numerically exact no-op, not a skipped branch. -/
def innerStep (p : LinearProblem) (s : SinkhornState) : SinkhornState :=
  if s.converged then s else sinkhornUpdate p s

/-- Marginal-residual error (§4.1): L1 deviation of the row marginal of the
induced coupling from the target `a` (L1 chosen, per the spec's instruction
to pick one norm and keep it consistent). -/
def marginalError (p : LinearProblem) (s : SinkhornState) : ℚ :=
  l1dist (mulVec s.f (matVec (kernelOf p) s.g)) p.a

/-- One checkpoint step: `innerIterations` masked updates followed by an
error check that records the error and may declare convergence; itself a
masked no-op once converged. -/
def checkpointStep (p : LinearProblem) (cfg : SinkhornConfig) (s : SinkhornState) :
    SinkhornState :=
  if s.converged then s
  else
    let s1 := (innerStep p)^[cfg.innerIterations] s
    let e := marginalError p s1
    { s1 with errors := s1.errors ++ [e], converged := decide (e < cfg.threshold) }

/-! ## Progress channel (§4.4) -/

/-- Modelled from the spec (§9): the tagged union of solver states that a
progress callback may observe. `LRSinkhornState` and `GWState` are declared
below; forward declaration is avoided by parameterizing later. -/
structure LRSinkhornState where
  Q : List (List ℚ)
  R : List (List ℚ)
  g : List ℚ
  errors : List ℚ
  converged : Bool
  it : ℕ
  deriving Repr, DecidableEq

/-- Modelled from the spec (§3 `GWState`): current coupling estimate, the
fixed-length `costs` history with sentinel `-1` for unwritten slots,
per-outer-iteration inner-convergence flags, the last recorded inner error
(sentinel `-1` before any is recorded), outer iteration count and flag. -/
structure GWState where
  P : List (List ℚ)
  costs : List ℚ
  linearConvergence : List Bool
  lastErr : ℚ
  it : ℕ
  converged : Bool
  deriving Repr, DecidableEq

/-- The tagged union of observable solver states (§4.4, §9). -/
inductive StateVariant where
  | sink (s : SinkhornState)
  | lowrank (s : LRSinkhornState)
  | gw (s : GWState)
  deriving Repr, DecidableEq

/-- A progress-channel event: the arguments marshalled to the host callback
(§4.4): current iteration, the error-computation cadence, the total
iteration budget, and the read-only state snapshot. -/
structure Event where
  iteration : ℕ
  inner : ℕ
  total : ℕ
  state : StateVariant
  deriving Repr, DecidableEq

/-- The fixed callback signature (§4.4):
`(iteration, inner_iterations, total_iterations, state) → observation`.
The observation type `α` is opaque to the solver: its value is never read
back into the numeric computation. -/
def ProgressCallback (α : Type) : Type := ℕ → ℕ → ℕ → StateVariant → α

/-- The trivial callback used when no progress channel is configured. -/
def noProgress : ProgressCallback Unit := fun _ _ _ _ => ()

/-! ## Sinkhorn driver loop -/

/-- The Sinkhorn checkpoint loop without a progress channel (§4.4: absence
of the callback removes the component entirely).  `cpt` counts the
checkpoints already executed; the loop stops early once converged (as the
tutorial's recorded runs show: reporting and iteration stop at natural
convergence). -/
def sinkLoop (p : LinearProblem) (cfg : SinkhornConfig) :
    ℕ → SinkhornState → SinkhornState
  | 0, s => s
  | fuel + 1, s =>
    if s.converged then s else sinkLoop p cfg fuel (checkpointStep p cfg s)

/-- The Sinkhorn checkpoint loop with the progress channel: after each
checkpoint the callback receives the capped iteration index, the cadence,
the budget and the state snapshot; its observations are accumulated in a
side list the numeric state never reads. -/
def sinkLoopCb {α : Type} (p : LinearProblem) (cfg : SinkhornConfig)
    (cb : ProgressCallback α) :
    ℕ → ℕ → SinkhornState → SinkhornState × List Event × List α
  | 0, _, s => (s, [], [])
  | fuel + 1, cpt, s =>
    if s.converged then (s, [], [])
    else
      let s' := checkpointStep p cfg s
      let itArg := min ((cpt + 1) * cfg.innerIterations) cfg.maxIterations
      let ev : Event := ⟨itArg, cfg.innerIterations, cfg.maxIterations, .sink s'⟩
      let o := cb itArg cfg.innerIterations cfg.maxIterations (.sink s')
      let rest := sinkLoopCb p cfg cb fuel (cpt + 1) s'
      (rest.1, ev :: rest.2.1, o :: rest.2.2)

/-- Initial Sinkhorn state: unit scalings (zero log-domain potentials). -/
def sinkInit (p : LinearProblem) : SinkhornState :=
  { f := List.replicate p.a.length 1, g := List.replicate p.b.length 1
    errors := [], converged := false, it := 0 }

/-- The transport plan induced by the scalings: `P i j = f i * K i j * g j`. -/
def planOf (p : LinearProblem) (s : SinkhornState) : List (List ℚ) :=
  List.zipWith (fun fi r => mulVec (r.map (fi * ·)) s.g) s.f (kernelOf p)

/-- Modelled from the spec (§3 `Output`): terminal, immutable result of a
linear solve.  `regCost` is the transport part `⟨C, P⟩` of the objective
(the entropic term involves `log`, not representable over `ℚ`); `nIters`
counts error checkpoints, matching the tutorial's reported `n_iters`. -/
structure Output where
  plan : List (List ℚ)
  regCost : ℚ
  converged : Bool
  nIters : ℕ
  lastErr : ℚ
  deriving Repr, DecidableEq

/-- Build the output from the final Sinkhorn state. -/
def outputOf (p : LinearProblem) (s : SinkhornState) : Output :=
  { plan := planOf p s
    regCost := (List.zipWith dotQ p.C (planOf p s)).sum
    converged := s.converged
    nIters := s.errors.length
    lastErr := (s.errors.getLast?).getD (-1) }

/-! ## Configuration validation (§7) -/

/-- Configuration-error taxonomy (§7a). -/
inductive ConfigError where
  | invalidRank
  | invalidMarginals
  | invalidEpsilon
  deriving Repr, DecidableEq

/-- Valid marginals (§7a): nonnegative entries, lengths matching the cost
matrix, positive (hence finite over `ℚ`) total mass. -/
def validMarginals (p : LinearProblem) : Bool :=
  p.a.all (fun x => 0 ≤ x) && p.b.all (fun x => 0 ≤ x) &&
  p.a.length == p.C.length && p.C.all (fun r => r.length == p.b.length) &&
  0 < p.a.sum && 0 < p.b.sum

/-- Full validity of a linear problem configuration. -/
def validLinear (p : LinearProblem) : Bool :=
  validMarginals p && 0 < p.eps

/-- Validation, run before any iteration (§7): marginal errors reported
before regularization errors. -/
def checkLinear (p : LinearProblem) : Option ConfigError :=
  if ¬ validMarginals p then some .invalidMarginals
  else if ¬ 0 < p.eps then some .invalidEpsilon
  else none

/-- Modelled from the spec (§4.1, §6, §7): the full-rank Sinkhorn solve.
Fails fast on invalid configuration; otherwise runs the checkpoint loop
(budget `⌈max/inner⌉` checkpoints) and always returns a fully populated
`Output` together with the progress events and callback observations. -/
def solveSinkhorn {α : Type} (p : LinearProblem) (cfg : SinkhornConfig)
    (cb : ProgressCallback α) :
    Except ConfigError (Output × List Event × List α) :=
  match checkLinear p with
  | some e => .error e
  | none =>
    let r := sinkLoopCb p cfg cb (ceilDiv cfg.maxIterations cfg.innerIterations)
      0 (sinkInit p)
    .ok (outputOf p r.1, r.2.1, r.2.2)

/-! ## Low-rank Sinkhorn engine (§4.2) -/

/-- Low-rank configuration: rank (an integer so that the invalid `rank ≤ 0`
configurations of §7 are representable), the floor applied to `g` to avoid
degenerate rank collapse, and the shared iteration configuration. -/
structure LRConfig where
  rank : ℤ
  gFloor : ℚ
  base : SinkhornConfig
  deriving Repr, DecidableEq

/-- Row sums of a matrix. -/
def rowSums (M : List (List ℚ)) : List ℚ := M.map List.sum

/-- Rescale each row of `M` so its sum matches the corresponding target
entry (multiplicative renormalization; a row summing to zero is left
unchanged by `ℚ`'s `x / 0 = 0`). -/
def rowScaleTo (M : List (List ℚ)) (target : List ℚ) : List (List ℚ) :=
  List.zipWith (fun r t => r.map (fun x => x * (t / r.sum))) M target

/-- Modelled from the spec (§4.2): one block-coordinate update of the
factors — a multiplicative renormalization restoring the marginal
constraints on `Q` and `R`, with `g` floored at a small positive epsilon to
keep factor updates well-defined.  The low-rank engine's source is not in
the visible slice; the claims settled against this model concern its
progress channel, validation and masking, not its numeric trajectory. -/
def lrUpdate (p : LinearProblem) (cfg : LRConfig) (s : LRSinkhornState) :
    LRSinkhornState :=
  { s with Q := rowScaleTo s.Q p.a, R := rowScaleTo s.R p.b
           g := s.g.map (fun x => max x cfg.gFloor), it := s.it + 1 }

/-- One masked low-rank inner iteration (§5): an exact no-op once
converged. -/
def lrInnerStep (p : LinearProblem) (cfg : LRConfig) (s : LRSinkhornState) :
    LRSinkhornState :=
  if s.converged then s else lrUpdate p cfg s

/-- Low-rank convergence error (§4.2): deviation of the reconstructed
marginals of the factors from the targets. -/
def lrError (p : LinearProblem) (s : LRSinkhornState) : ℚ :=
  l1dist (rowSums s.Q) p.a + l1dist (rowSums s.R) p.b

/-- One low-rank checkpoint step, masked once converged. -/
def lrCheckpointStep (p : LinearProblem) (cfg : LRConfig) (s : LRSinkhornState) :
    LRSinkhornState :=
  if s.converged then s
  else
    let s1 := (lrInnerStep p cfg)^[cfg.base.innerIterations] s
    let e := lrError p s1
    { s1 with errors := s1.errors ++ [e]
              converged := decide (e < cfg.base.threshold) }

/-- The low-rank checkpoint loop without a progress channel. -/
def lrLoop (p : LinearProblem) (cfg : LRConfig) :
    ℕ → LRSinkhornState → LRSinkhornState
  | 0, s => s
  | fuel + 1, s =>
    if s.converged then s else lrLoop p cfg fuel (lrCheckpointStep p cfg s)

/-- The low-rank checkpoint loop with the progress channel. -/
def lrLoopCb {α : Type} (p : LinearProblem) (cfg : LRConfig)
    (cb : ProgressCallback α) :
    ℕ → ℕ → LRSinkhornState → LRSinkhornState × List Event × List α
  | 0, _, s => (s, [], [])
  | fuel + 1, cpt, s =>
    if s.converged then (s, [], [])
    else
      let s' := lrCheckpointStep p cfg s
      let k := cfg.base.innerIterations
      let itArg := min ((cpt + 1) * k) cfg.base.maxIterations
      let ev : Event := ⟨itArg, k, cfg.base.maxIterations, .lowrank s'⟩
      let o := cb itArg k cfg.base.maxIterations (.lowrank s')
      let rest := lrLoopCb p cfg cb fuel (cpt + 1) s'
      (rest.1, ev :: rest.2.1, o :: rest.2.2)

/-- Initial low-rank state: factors spreading each marginal uniformly over
the `rank` columns, `g` uniform. -/
def lrInit (p : LinearProblem) (cfg : LRConfig) : LRSinkhornState :=
  let r := cfg.rank.toNat
  { Q := p.a.map (fun ai => List.replicate r (ai / r))
    R := p.b.map (fun bi => List.replicate r (bi / r))
    g := List.replicate r (1 / (r : ℚ))
    errors := [], converged := false, it := 0 }

/-- The coupling reconstructed from the three factors:
`P i j = Σ_k Q i k * R j k / g k`. -/
def lrPlan (s : LRSinkhornState) : List (List ℚ) :=
  s.Q.map (fun qrow => s.R.map (fun rrow => (List.zipWith
    (fun qg rr => qg * rr) (List.zipWith (· / ·) qrow s.g) rrow).sum))

/-- Build the output from the final low-rank state. -/
def lrOutputOf (p : LinearProblem) (s : LRSinkhornState) : Output :=
  { plan := lrPlan s
    regCost := (List.zipWith dotQ p.C (lrPlan s)).sum
    converged := s.converged
    nIters := s.errors.length
    lastErr := (s.errors.getLast?).getD (-1) }

/-- Low-rank validation (§7a): invalid rank is reported first, then the
linear-problem checks. -/
def checkLR (p : LinearProblem) (cfg : LRConfig) : Option ConfigError :=
  if cfg.rank ≤ 0 then some .invalidRank else checkLinear p

/-- Modelled from the spec (§4.2, §6, §7): the low-rank Sinkhorn solve. -/
def solveLR {α : Type} (p : LinearProblem) (cfg : LRConfig)
    (cb : ProgressCallback α) :
    Except ConfigError (Output × List Event × List α) :=
  match checkLR p cfg with
  | some e => .error e
  | none =>
    let r := lrLoopCb p cfg cb
      (ceilDiv cfg.base.maxIterations cfg.base.innerIterations) 0 (lrInit p cfg)
    .ok (lrOutputOf p r.1, r.2.1, r.2.2)

/-! ## Gromov–Wasserstein outer loop (§4.3) -/

/-- Modelled from the spec (§4.3): a quadratic problem — two intra-domain
cost structures, marginals, regularization. -/
structure QuadraticProblem where
  Cx : List (List ℚ)
  Cy : List (List ℚ)
  a : List ℚ
  b : List ℚ
  eps : ℚ
  deriving Repr, DecidableEq

/-- GW configuration (§4.3): outer budget and threshold, the inner Sinkhorn
configuration, whether inner error histories are retained, and whether the
conditional-gradient line-search update is used (else direct adoption). -/
structure GWConfig where
  maxOuter : ℕ
  outerThreshold : ℚ
  innerCfg : SinkhornConfig
  storeInnerErrors : Bool
  lineSearch : Bool
  deriving Repr, DecidableEq

/-- Matrix entry access with default `0`. -/
def entry (M : List (List ℚ)) (i j : ℕ) : ℚ := (M.getD i []).getD j 0

/-- Modelled from the spec (§4.3 step 1): linearization of the quadratic
objective at coupling `P` — the tensor contraction
`L(P) i j = Σ_{k,l} (Cx i k − Cy j l)² · P k l` (squared difference loss). -/
def linCost (qp : QuadraticProblem) (P : List (List ℚ)) : List (List ℚ) :=
  (List.range qp.Cx.length).map (fun i =>
    (List.range qp.Cy.length).map (fun j =>
      ((List.range qp.Cx.length).map (fun k =>
        ((List.range qp.Cy.length).map (fun l =>
          (entry qp.Cx i k - entry qp.Cy j l) ^ 2 * entry P k l)).sum)).sum))

/-- The quadratic GW objective at `P`: `⟨L(P), P⟩`. -/
def gwObj (qp : QuadraticProblem) (P : List (List ℚ)) : ℚ :=
  (List.zipWith dotQ (linCost qp P) P).sum

/-- Convex combination of couplings: `(1 − t)·P + t·P'` (entrywise). -/
def combo (t : ℚ) (P P' : List (List ℚ)) : List (List ℚ) :=
  List.zipWith (fun r r' => List.zipWith (fun x y => (1 - t) * x + t * y) r r') P P'

/-- Pick, among `c0` and the candidates `cs`, the argument with the least
objective value. -/
def pickBestP {β : Type} (f : β → ℚ) (cs : List β) (c0 : β) : β :=
  cs.foldl (fun best c => if f c < f best then c else best) c0

/-- The line-search candidates: points on the segment from the current
coupling (`t = 0`, the base candidate of `pickBestP`) to the inner plan
(`t = 1`), at step sizes `1/4, 1/2, 3/4, 1`. -/
def lineCandidates (P Pinner : List (List ℚ)) : List (List (List ℚ)) :=
  [combo (1/4) P Pinner, combo (1/2) P Pinner, combo (3/4) P Pinner, Pinner]

/-- Modelled from the spec (§4.3 step 3): the coupling update — either
direct adoption of the inner plan, or the conditional-gradient line-search
step minimizing the quadratic objective over the segment (staying put,
`t = 0`, is always a candidate). -/
def gwNextP (qp : QuadraticProblem) (cfg : GWConfig)
    (P Pinner : List (List ℚ)) : List (List ℚ) :=
  if cfg.lineSearch then pickBestP (gwObj qp) (lineCandidates P Pinner) P
  else Pinner

/-- The inner linear problem of one outer iteration (§4.3 step 1–2). -/
def gwInnerProblem (qp : QuadraticProblem) (P : List (List ℚ)) : LinearProblem :=
  { C := linCost qp P, a := qp.a, b := qp.b, eps := qp.eps }

/-- The inner Sinkhorn solve of one outer iteration: a fresh run of the
full-rank engine on the linearized problem (§4.3 step 2, §5). -/
def gwInnerRun (qp : QuadraticProblem) (cfg : GWConfig) (P : List (List ℚ)) :
    SinkhornState :=
  let lp := gwInnerProblem qp P
  sinkLoop lp cfg.innerCfg
    (ceilDiv cfg.innerCfg.maxIterations cfg.innerCfg.innerIterations)
    (sinkInit lp)

/-- Relative-change convergence criterion over consecutive valid cost
entries (§4.3). -/
def relConverged (thr prev c : ℚ) : Bool := decide (|c - prev| ≤ thr * |prev|)

/-- Modelled from the spec (§4.3): one outer GW iteration — linearize at
the current coupling, delegate to the Sinkhorn engine, adopt the returned
plan (directly or by line search) even when the inner solve did not
converge, record the cost in the next `costs` slot and the inner
convergence flag, update the reported error (inner last error when
`storeInnerErrors`, else the sentinel), and check outer convergence by
relative cost change.  Masked no-op once converged. -/
def gwOuterStep (qp : QuadraticProblem) (cfg : GWConfig) (s : GWState) : GWState :=
  if s.converged then s
  else
    let inner := gwInnerRun qp cfg s.P
    let innerOut := outputOf (gwInnerProblem qp s.P) inner
    let newP := gwNextP qp cfg s.P innerOut.plan
    let c := gwObj qp newP
    let conv := if s.it = 0 then false
      else relConverged cfg.outerThreshold (s.costs.getD (s.it - 1) (-1)) c
    { P := newP
      costs := s.costs.set s.it c
      linearConvergence := s.linearConvergence ++ [innerOut.converged]
      lastErr := if cfg.storeInnerErrors then innerOut.lastErr else -1
      it := s.it + 1
      converged := conv }

/-- The GW outer loop without a progress channel. -/
def gwLoop (qp : QuadraticProblem) (cfg : GWConfig) : ℕ → GWState → GWState
  | 0, s => s
  | fuel + 1, s =>
    if s.converged then s else gwLoop qp cfg fuel (gwOuterStep qp cfg s)

/-- The GW outer loop with the progress channel: the callback fires at the
start of each executed outer iteration with the current state — so the
first invocation observes the sentinel `-1` error, actual errors appearing
one iteration later (as the tutorial's recorded output shows). -/
def gwLoopCb {α : Type} (qp : QuadraticProblem) (cfg : GWConfig)
    (cb : ProgressCallback α) : ℕ → GWState → GWState × List Event × List α
  | 0, s => (s, [], [])
  | fuel + 1, s =>
    if s.converged then (s, [], [])
    else
      let ev : Event := ⟨s.it + 1, 1, cfg.maxOuter, .gw s⟩
      let o := cb (s.it + 1) 1 cfg.maxOuter (.gw s)
      let rest := gwLoopCb qp cfg cb fuel (gwOuterStep qp cfg s)
      (rest.1, ev :: rest.2.1, o :: rest.2.2)

/-- Initial GW state: product coupling of the marginals, all `costs` slots
at the sentinel `-1`, no flags, sentinel last error. -/
def gwInit (qp : QuadraticProblem) (cfg : GWConfig) : GWState :=
  { P := qp.a.map (fun ai => qp.b.map (fun bj => ai * bj))
    costs := List.replicate cfg.maxOuter (-1)
    linearConvergence := []
    lastErr := -1
    it := 0
    converged := false }

/-- Modelled from the spec (§3 `Output`, §6): the GW output — final plan,
achieved cost, overall convergence (outer cost convergence and the last
inner flag), outer count, cost history and per-iteration flags. -/
structure GWOutput where
  plan : List (List ℚ)
  regGWCost : ℚ
  converged : Bool
  nOuter : ℕ
  costs : List ℚ
  linearConvergence : List Bool
  deriving Repr, DecidableEq

/-- Build the GW output from the final state. -/
def gwOutputOf (s : GWState) : GWOutput :=
  { plan := s.P
    regGWCost := s.costs.getD (s.it - 1) (-1)
    converged := s.converged && (s.linearConvergence.getLast?).getD true
    nOuter := s.it
    costs := s.costs
    linearConvergence := s.linearConvergence }

/-- A square matrix of the given side length. -/
def squareOf (M : List (List ℚ)) (n : ℕ) : Bool :=
  M.length == n && M.all (fun r => r.length == n)

/-- Valid marginals and cost shapes for a quadratic problem (§7a). -/
def validQuadMarginals (qp : QuadraticProblem) : Bool :=
  qp.a.all (fun x => 0 ≤ x) && qp.b.all (fun x => 0 ≤ x) &&
  squareOf qp.Cx qp.a.length && squareOf qp.Cy qp.b.length &&
  0 < qp.a.sum && 0 < qp.b.sum

/-- Full validity of a quadratic problem configuration. -/
def validQuadratic (qp : QuadraticProblem) : Bool :=
  validQuadMarginals qp && 0 < qp.eps

/-- Quadratic-problem validation (§7a). -/
def checkQuadratic (qp : QuadraticProblem) : Option ConfigError :=
  if ¬ validQuadMarginals qp then some .invalidMarginals
  else if ¬ 0 < qp.eps then some .invalidEpsilon
  else none

/-- Modelled from the spec (§4.3, §6, §7): the GW solve. -/
def solveGW {α : Type} (qp : QuadraticProblem) (cfg : GWConfig)
    (cb : ProgressCallback α) :
    Except ConfigError (GWOutput × List Event × List α) :=
  match checkQuadratic qp with
  | some e => .error e
  | none =>
    let r := gwLoopCb qp cfg cb cfg.maxOuter (gwInit qp cfg)
    .ok (gwOutputOf r.1, r.2.1, r.2.2)

/-! ## Helper lemmas: the progress channel is a pure side channel -/

theorem mem_zipWith {α β γ : Type} {f : α → β → γ} :
    ∀ {l1 : List α} {l2 : List β} {x : γ}, x ∈ List.zipWith f l1 l2 →
      ∃ a ∈ l1, ∃ b ∈ l2, x = f a b := by
  intro l1
  induction l1 with
  | nil => intro l2 x h; simp [List.zipWith] at h
  | cons a t ih =>
    intro l2 x h
    cases l2 with
    | nil => simp [List.zipWith] at h
    | cons b t2 =>
      simp only [List.zipWith, List.mem_cons] at h
      rcases h with h | h
      · exact ⟨a, by simp, b, by simp, h⟩
      · rcases ih h with ⟨a', ha, b', hb, hx⟩
        exact ⟨a', by simp [ha], b', by simp [hb], hx⟩

theorem sinkLoopCb_fst {α : Type} (p : LinearProblem) (cfg : SinkhornConfig)
    (cb : ProgressCallback α) :
    ∀ fuel cpt s, (sinkLoopCb p cfg cb fuel cpt s).1 = sinkLoop p cfg fuel s := by
  intro fuel
  induction fuel with
  | zero => intro cpt s; rfl
  | succ n ih =>
    intro cpt s
    simp only [sinkLoopCb, sinkLoop]
    by_cases h : s.converged <;> simp [h, ih]

theorem sinkLoopCb_events {α β : Type} (p : LinearProblem) (cfg : SinkhornConfig)
    (cb : ProgressCallback α) (cb' : ProgressCallback β) :
    ∀ fuel cpt s,
      (sinkLoopCb p cfg cb fuel cpt s).2.1 = (sinkLoopCb p cfg cb' fuel cpt s).2.1 := by
  intro fuel
  induction fuel with
  | zero => intro cpt s; rfl
  | succ n ih =>
    intro cpt s
    simp only [sinkLoopCb]
    by_cases h : s.converged <;> simp [h, ih]

theorem lrLoopCb_fst {α : Type} (p : LinearProblem) (cfg : LRConfig)
    (cb : ProgressCallback α) :
    ∀ fuel cpt s, (lrLoopCb p cfg cb fuel cpt s).1 = lrLoop p cfg fuel s := by
  intro fuel
  induction fuel with
  | zero => intro cpt s; rfl
  | succ n ih =>
    intro cpt s
    simp only [lrLoopCb, lrLoop]
    by_cases h : s.converged <;> simp [h, ih]

theorem lrLoopCb_events {α β : Type} (p : LinearProblem) (cfg : LRConfig)
    (cb : ProgressCallback α) (cb' : ProgressCallback β) :
    ∀ fuel cpt s,
      (lrLoopCb p cfg cb fuel cpt s).2.1 = (lrLoopCb p cfg cb' fuel cpt s).2.1 := by
  intro fuel
  induction fuel with
  | zero => intro cpt s; rfl
  | succ n ih =>
    intro cpt s
    simp only [lrLoopCb]
    by_cases h : s.converged <;> simp [h, ih]

theorem gwLoopCb_fst {α : Type} (qp : QuadraticProblem) (cfg : GWConfig)
    (cb : ProgressCallback α) :
    ∀ fuel s, (gwLoopCb qp cfg cb fuel s).1 = gwLoop qp cfg fuel s := by
  intro fuel
  induction fuel with
  | zero => intro s; rfl
  | succ n ih =>
    intro s
    simp only [gwLoopCb, gwLoop]
    by_cases h : s.converged <;> simp [h, ih]

theorem gwLoopCb_events {α β : Type} (qp : QuadraticProblem) (cfg : GWConfig)
    (cb : ProgressCallback α) (cb' : ProgressCallback β) :
    ∀ fuel s,
      (gwLoopCb qp cfg cb fuel s).2.1 = (gwLoopCb qp cfg cb' fuel s).2.1 := by
  intro fuel
  induction fuel with
  | zero => intro s; rfl
  | succ n ih =>
    intro s
    simp only [gwLoopCb]
    by_cases h : s.converged <;> simp [h, ih]

theorem sinkLoopCb_events_length_le {α : Type} (p : LinearProblem)
    (cfg : SinkhornConfig) (cb : ProgressCallback α) :
    ∀ fuel cpt s, (sinkLoopCb p cfg cb fuel cpt s).2.1.length ≤ fuel := by
  intro fuel
  induction fuel with
  | zero => intro cpt s; simp [sinkLoopCb]
  | succ n ih =>
    intro cpt s
    simp only [sinkLoopCb]
    by_cases h : s.converged <;> simp [h]
    exact ih _ _

theorem sinkLoopCb_events_iteration {α : Type} (p : LinearProblem)
    (cfg : SinkhornConfig) (cb : ProgressCallback α) (d : Event) :
    ∀ fuel cpt s i, i < (sinkLoopCb p cfg cb fuel cpt s).2.1.length →
      ((sinkLoopCb p cfg cb fuel cpt s).2.1.getD i d).iteration =
        min ((cpt + i + 1) * cfg.innerIterations) cfg.maxIterations := by
  intro fuel
  induction fuel with
  | zero => intro cpt s i h; simp [sinkLoopCb] at h
  | succ n ih =>
    intro cpt s i h
    by_cases hc : s.converged
    · simp [sinkLoopCb, hc] at h
    · simp only [sinkLoopCb, if_neg hc] at h ⊢
      cases i with
      | zero => simp
      | succ j =>
        simp only [List.getD_cons_succ]
        rw [ih (cpt + 1) (checkpointStep p cfg s) j
          (Nat.lt_of_succ_lt_succ (by simpa using h))]
        have e : cpt + 1 + j + 1 = cpt + (j + 1) + 1 := by omega
        rw [e]

theorem iterate_innerStep_errors (p : LinearProblem) :
    ∀ n s, ((innerStep p)^[n] s).errors = s.errors := by
  intro n
  induction n with
  | zero => intro s; rfl
  | succ m ih =>
    intro s
    rw [Function.iterate_succ_apply, ih]
    by_cases h : s.converged <;> simp [innerStep, sinkhornUpdate, h]

theorem sinkLoopCb_errors_length {α : Type} (p : LinearProblem)
    (cfg : SinkhornConfig) (cb : ProgressCallback α) :
    ∀ fuel cpt s, (sinkLoopCb p cfg cb fuel cpt s).1.errors.length =
      s.errors.length + (sinkLoopCb p cfg cb fuel cpt s).2.1.length := by
  intro fuel
  induction fuel with
  | zero => intro cpt s; simp [sinkLoopCb]
  | succ n ih =>
    intro cpt s
    by_cases h : s.converged
    · simp [sinkLoopCb, h]
    · simp only [sinkLoopCb, h, Bool.false_eq_true, if_false, List.length_cons]
      rw [ih]
      have : (checkpointStep p cfg s).errors.length = s.errors.length + 1 := by
        simp [checkpointStep, h, iterate_innerStep_errors]
      rw [this]
      omega

theorem sinkLoopCb_obs_length {α : Type} (p : LinearProblem)
    (cfg : SinkhornConfig) (cb : ProgressCallback α) :
    ∀ fuel cpt s, (sinkLoopCb p cfg cb fuel cpt s).2.2.length =
      (sinkLoopCb p cfg cb fuel cpt s).2.1.length := by
  intro fuel
  induction fuel with
  | zero => intro cpt s; rfl
  | succ n ih =>
    intro cpt s
    simp only [sinkLoopCb]
    by_cases h : s.converged <;> simp [h, ih]

theorem lrLoopCb_obs_length {α : Type} (p : LinearProblem)
    (cfg : LRConfig) (cb : ProgressCallback α) :
    ∀ fuel cpt s, (lrLoopCb p cfg cb fuel cpt s).2.2.length =
      (lrLoopCb p cfg cb fuel cpt s).2.1.length := by
  intro fuel
  induction fuel with
  | zero => intro cpt s; rfl
  | succ n ih =>
    intro cpt s
    simp only [lrLoopCb]
    by_cases h : s.converged <;> simp [h, ih]

theorem gwLoopCb_obs_length {α : Type} (qp : QuadraticProblem)
    (cfg : GWConfig) (cb : ProgressCallback α) :
    ∀ fuel s, (gwLoopCb qp cfg cb fuel s).2.2.length =
      (gwLoopCb qp cfg cb fuel s).2.1.length := by
  intro fuel
  induction fuel with
  | zero => intro s; rfl
  | succ n ih =>
    intro s
    simp only [gwLoopCb]
    by_cases h : s.converged <;> simp [h, ih]

/-- Recognizer for the full-rank Sinkhorn state variant. -/
def StateVariant.isSink : StateVariant → Bool
  | .sink _ => true
  | _ => false

/-- Recognizer for the low-rank Sinkhorn state variant. -/
def StateVariant.isLowrank : StateVariant → Bool
  | .lowrank _ => true
  | _ => false

/-- Recognizer for the Gromov–Wasserstein state variant. -/
def StateVariant.isGW : StateVariant → Bool
  | .gw _ => true
  | _ => false

theorem sinkLoopCb_events_variant {α : Type} (p : LinearProblem)
    (cfg : SinkhornConfig) (cb : ProgressCallback α) :
    ∀ fuel cpt s,
      (sinkLoopCb p cfg cb fuel cpt s).2.1.all (fun e => e.state.isSink) = true := by
  intro fuel
  induction fuel with
  | zero => intro cpt s; rfl
  | succ n ih =>
    intro cpt s
    simp only [sinkLoopCb]
    by_cases h : s.converged
    · simp [h]
    · simp only [if_neg h, List.all_cons, Bool.and_eq_true]
      exact ⟨rfl, ih _ _⟩

theorem lrLoopCb_events_variant {α : Type} (p : LinearProblem)
    (cfg : LRConfig) (cb : ProgressCallback α) :
    ∀ fuel cpt s,
      (lrLoopCb p cfg cb fuel cpt s).2.1.all (fun e => e.state.isLowrank) = true := by
  intro fuel
  induction fuel with
  | zero => intro cpt s; rfl
  | succ n ih =>
    intro cpt s
    simp only [lrLoopCb]
    by_cases h : s.converged
    · simp [h]
    · simp only [if_neg h, List.all_cons, Bool.and_eq_true]
      exact ⟨rfl, ih _ _⟩

theorem gwLoopCb_events_variant {α : Type} (qp : QuadraticProblem)
    (cfg : GWConfig) (cb : ProgressCallback α) :
    ∀ fuel s,
      (gwLoopCb qp cfg cb fuel s).2.1.all (fun e => e.state.isGW) = true := by
  intro fuel
  induction fuel with
  | zero => intro s; rfl
  | succ n ih =>
    intro s
    simp only [gwLoopCb]
    by_cases h : s.converged
    · simp [h]
    · simp only [if_neg h, List.all_cons, Bool.and_eq_true]
      exact ⟨rfl, ih _⟩

/-! ## Concrete instances used by witnesses and counterexamples -/

/-- A 1×1 problem with zero cost: converges at the first checkpoint. -/
def exP0 : LinearProblem := ⟨[[0]], [1], [1], 1⟩

/-- Budget 5, cadence 1, threshold 1/2: five checkpoints available. -/
def exCfg0 : SinkhornConfig := ⟨5, 1, 1/2⟩

/-- A converged 1×1 Sinkhorn state. -/
def exS0 : SinkhornState := ⟨[1], [1], [0], true, 1⟩

/-- A symmetric 2×2 problem with uniform marginals. -/
def exP1 : LinearProblem := ⟨[[0, 1], [1, 0]], [1/2, 1/2], [1/2, 1/2], 1⟩

/-- Budget 6, cadence 2, threshold 1/100. -/
def exCfg1 : SinkhornConfig := ⟨6, 2, 1/100⟩

/-- An invalid problem: second marginal sums to zero. -/
def exPbad : LinearProblem := ⟨[[0, 1], [1, 0]], [1/2, 1/2], [0, 0], 1⟩

/-- A low-rank configuration of rank 2. -/
def exLcfg0 : LRConfig := ⟨2, 1/1000, ⟨4, 2, 1/100⟩⟩

/-- A low-rank configuration with invalid rank 0. -/
def exLcfgBad : LRConfig := ⟨0, 1/1000, ⟨4, 2, 1/100⟩⟩

/-- A small 2×2 quadratic problem. -/
def exQP0 : QuadraticProblem :=
  ⟨[[0, 1], [1, 0]], [[0, 2], [2, 0]], [1/2, 1/2], [1/2, 1/2], 1⟩

/-- A GW configuration with line search and inner-error storage. -/
def exGcfg0 : GWConfig := ⟨4, 1/100, ⟨4, 2, 1/100⟩, true, true⟩

/-- A GW configuration whose inner threshold 0 makes the inner Sinkhorn
solve non-convergent (the L1 error is never `< 0`). -/
def exGcfgNC : GWConfig := ⟨2, 1/100, ⟨2, 1, 0⟩, true, false⟩

/-! ## Claim theorems -/

/-- C1: for every linear or quadratic problem and solver configuration,
running the solve (Sinkhorn, low-rank Sinkhorn, or Gromov–Wasserstein) with
a progress callback returns the same numeric `Output` (plan, cost,
converged flag, iteration counts) as with no callback: the callback is a
pure side channel that never influences the numeric computation. -/
theorem callback_never_alters_numeric_output {α : Type} (cb : ProgressCallback α)
    (p : LinearProblem) (cfg : SinkhornConfig) (lcfg : LRConfig)
    (qp : QuadraticProblem) (gcfg : GWConfig) :
    (solveSinkhorn p cfg cb).map Prod.fst =
      (solveSinkhorn p cfg noProgress).map Prod.fst ∧
    (solveLR p lcfg cb).map Prod.fst =
      (solveLR p lcfg noProgress).map Prod.fst ∧
    (solveGW qp gcfg cb).map Prod.fst =
      (solveGW qp gcfg noProgress).map Prod.fst := by
  refine ⟨?_, ?_, ?_⟩
  · unfold solveSinkhorn
    cases hc : checkLinear p <;> simp [Except.map, sinkLoopCb_fst]
  · unfold solveLR
    cases hc : checkLR p lcfg <;> simp [Except.map, lrLoopCb_fst]
  · unfold solveGW
    cases hc : checkQuadratic qp <;> simp [Except.map, gwLoopCb_fst]

/-- C2: once `SinkhornState.converged` is true, one additional iteration of
the (masked) update leaves the potentials `f` and `g` numerically unchanged
— an exact no-op, not an approximate one — and so does every further
iteration up to the statically fixed `max_iterations`, both at the raw
iteration level and at the checkpoint level. -/
theorem sinkhorn_idempotent_after_convergence (p : LinearProblem)
    (cfg : SinkhornConfig) (s : SinkhornState) (h : s.converged = true) :
    (innerStep p s).f = s.f ∧ (innerStep p s).g = s.g ∧
    (∀ n, n ≤ cfg.maxIterations →
      ((innerStep p)^[n] s).f = s.f ∧ ((innerStep p)^[n] s).g = s.g) ∧
    (∀ n, n ≤ cfg.maxIterations → (checkpointStep p cfg)^[n] s = s) := by
  have hinner : innerStep p s = s := by simp [innerStep, h]
  have hcheck : checkpointStep p cfg s = s := by simp [checkpointStep, h]
  refine ⟨by rw [hinner], by rw [hinner], ?_, ?_⟩
  · intro n _
    rw [Function.iterate_fixed hinner n]
    exact ⟨rfl, rfl⟩
  · intro n _
    exact Function.iterate_fixed hcheck n

/-- C2 witness: the idempotence theorem applied to a concrete converged
state. -/
theorem sinkhorn_idempotent_after_convergence_witness :
    (innerStep exP0 exS0).f = exS0.f ∧ (innerStep exP0 exS0).g = exS0.g ∧
    (((innerStep exP0)^[3] exS0).f = exS0.f ∧ ((innerStep exP0)^[3] exS0).g = exS0.g) ∧
    (checkpointStep exP0 exCfg0)^[3] exS0 = exS0 := by
  have h := sinkhorn_idempotent_after_convergence exP0 exCfg0 exS0 (by decide)
  exact ⟨h.1, h.2.1, h.2.2.1 3 (by decide), h.2.2.2 3 (by decide)⟩

/-- C5: the progress callback has the fixed signature
`(iteration, inner_iterations, total_iterations, state) → observation`; the
observed state is the solver's own variant (`SinkhornState`,
`LRSinkhornState`, or `GWState`), the channel is read-only (numeric output
and event stream are identical for any two callbacks, of any observation
types), and the callback's return value is discarded (one observation per
invocation, never fed back). -/
theorem callback_signature_readonly_discarded {α β : Type}
    (cb : ProgressCallback α) (cb' : ProgressCallback β)
    (p : LinearProblem) (cfg : SinkhornConfig) (lcfg : LRConfig)
    (qp : QuadraticProblem) (gcfg : GWConfig) :
    ((solveSinkhorn p cfg cb).map (fun r => (r.1, r.2.1)) =
       (solveSinkhorn p cfg cb').map (fun r => (r.1, r.2.1)) ∧
     (solveSinkhorn p cfg cb).map (fun r => r.2.1.all (fun e => e.state.isSink)) =
       (solveSinkhorn p cfg cb).map (fun _ => true) ∧
     (solveSinkhorn p cfg cb).map (fun r => r.2.2.length) =
       (solveSinkhorn p cfg cb).map (fun r => r.2.1.length)) ∧
    ((solveLR p lcfg cb).map (fun r => (r.1, r.2.1)) =
       (solveLR p lcfg cb').map (fun r => (r.1, r.2.1)) ∧
     (solveLR p lcfg cb).map (fun r => r.2.1.all (fun e => e.state.isLowrank)) =
       (solveLR p lcfg cb).map (fun _ => true) ∧
     (solveLR p lcfg cb).map (fun r => r.2.2.length) =
       (solveLR p lcfg cb).map (fun r => r.2.1.length)) ∧
    ((solveGW qp gcfg cb).map (fun r => (r.1, r.2.1)) =
       (solveGW qp gcfg cb').map (fun r => (r.1, r.2.1)) ∧
     (solveGW qp gcfg cb).map (fun r => r.2.1.all (fun e => e.state.isGW)) =
       (solveGW qp gcfg cb).map (fun _ => true) ∧
     (solveGW qp gcfg cb).map (fun r => r.2.2.length) =
       (solveGW qp gcfg cb).map (fun r => r.2.1.length)) := by
  refine ⟨⟨?_, ?_, ?_⟩, ⟨?_, ?_, ?_⟩, ⟨?_, ?_, ?_⟩⟩
  · unfold solveSinkhorn
    cases hc : checkLinear p <;>
      simp [Except.map, sinkLoopCb_fst, sinkLoopCb_events p cfg cb cb']
  · unfold solveSinkhorn
    cases hc : checkLinear p <;> simp [Except.map, sinkLoopCb_events_variant]
  · unfold solveSinkhorn
    cases hc : checkLinear p <;> simp [Except.map, sinkLoopCb_obs_length]
  · unfold solveLR
    cases hc : checkLR p lcfg <;>
      simp [Except.map, lrLoopCb_fst, lrLoopCb_events p lcfg cb cb']
  · unfold solveLR
    cases hc : checkLR p lcfg <;> simp [Except.map, lrLoopCb_events_variant]
  · unfold solveLR
    cases hc : checkLR p lcfg <;> simp [Except.map, lrLoopCb_obs_length]
  · unfold solveGW
    cases hc : checkQuadratic qp <;>
      simp [Except.map, gwLoopCb_fst, gwLoopCb_events qp gcfg cb cb']
  · unfold solveGW
    cases hc : checkQuadratic qp <;> simp [Except.map, gwLoopCb_events_variant]
  · unfold solveGW
    cases hc : checkQuadratic qp <;> simp [Except.map, gwLoopCb_obs_length]

theorem checkLinear_none_iff (p : LinearProblem) :
    checkLinear p = none ↔ validLinear p = true := by
  unfold checkLinear validLinear
  by_cases h1 : validMarginals p <;> by_cases h2 : (0 : ℚ) < p.eps <;>
    simp [h1, h2]

theorem checkLR_none_iff (p : LinearProblem) (cfg : LRConfig) :
    checkLR p cfg = none ↔ (0 < cfg.rank ∧ validLinear p = true) := by
  unfold checkLR
  by_cases h : cfg.rank ≤ 0 <;> simp [h, checkLinear_none_iff] <;> omega

theorem checkQuadratic_none_iff (qp : QuadraticProblem) :
    checkQuadratic qp = none ↔ validQuadratic qp = true := by
  unfold checkQuadratic validQuadratic
  by_cases h1 : validQuadMarginals qp <;> by_cases h2 : (0 : ℚ) < qp.eps <;>
    simp [h1, h2]

/-- C3: a solve raises a configuration error if and only if its
configuration is invalid (invalid rank for the low-rank engine; invalid
marginals — negative entries, mismatched lengths, non-positive mass, in
particular a marginal summing to zero; non-positive `ε`); the error is
raised before any iteration begins (it does not depend on the iteration
budget); and with a valid configuration the solve never raises: it returns
the fully populated `Output` of the final loop state — in particular
non-convergence within the budget is reported as `converged = false`
together with the checkpoint count and last recorded error, never as a
failure. -/
theorem config_error_iff_invalid_and_nonconvergence_is_not_an_error
    {α : Type} (cb : ProgressCallback α) (p : LinearProblem)
    (cfg : SinkhornConfig) (lcfg : LRConfig) (qp : QuadraticProblem)
    (gcfg : GWConfig) :
    ((∃ e, solveSinkhorn p cfg cb = .error e) ↔ validLinear p = false) ∧
    ((∃ e, solveLR p lcfg cb = .error e) ↔
      (lcfg.rank ≤ 0 ∨ validLinear p = false)) ∧
    ((∃ e, solveGW qp gcfg cb = .error e) ↔ validQuadratic qp = false) ∧
    (validLinear p = false →
      ∀ cfg₂, solveSinkhorn p cfg cb = solveSinkhorn p cfg₂ cb) ∧
    ((lcfg.rank ≤ 0 ∨ validLinear p = false) →
      ∀ base₂, solveLR p lcfg cb = solveLR p { lcfg with base := base₂ } cb) ∧
    (validQuadratic qp = false →
      ∀ n₂ ic₂, solveGW qp gcfg cb =
        solveGW qp { gcfg with maxOuter := n₂, innerCfg := ic₂ } cb) ∧
    (validLinear p = true → ∃ evs obs,
      solveSinkhorn p cfg cb =
        .ok (outputOf p (sinkLoop p cfg
          (ceilDiv cfg.maxIterations cfg.innerIterations) (sinkInit p)),
          evs, obs)) ∧
    (∀ s : SinkhornState, (outputOf p s).converged = s.converged ∧
      (outputOf p s).nIters = s.errors.length ∧
      (outputOf p s).lastErr = (s.errors.getLast?).getD (-1)) := by
  have hs : ∀ {e}, checkLinear p = some e →
      ∀ cfg', solveSinkhorn p cfg' cb = .error e := by
    intro e he cfg'
    simp [solveSinkhorn, he]
  have hl : ∀ {e}, checkLR p lcfg = some e →
      ∀ cfg' : LRConfig, checkLR p cfg' = some e →
        solveLR p cfg' cb = .error e := by
    intro e _ cfg' he'
    simp [solveLR, he']
  have hg : ∀ {e}, checkQuadratic qp = some e →
      ∀ cfg', solveGW qp cfg' cb = .error e := by
    intro e he cfg'
    simp [solveGW, he]
  refine ⟨?_, ?_, ?_, ?_, ?_, ?_, ?_, ?_⟩
  · constructor
    · rintro ⟨e, he⟩
      by_contra hv
      have hv' : validLinear p = true := by
        cases hvv : validLinear p
        · exact absurd hvv hv
        · rfl
      have hc := (checkLinear_none_iff p).mpr hv'
      simp [solveSinkhorn, hc] at he
    · intro hv
      cases hcc : checkLinear p with
      | none =>
        rw [(checkLinear_none_iff p).mp hcc] at hv
        cases hv
      | some e => exact ⟨e, hs hcc cfg⟩
  · constructor
    · rintro ⟨e, he⟩
      by_contra hv
      push_neg at hv
      have hrank : 0 < lcfg.rank := by omega
      have hv' : validLinear p = true := by
        cases hvv : validLinear p
        · exact absurd hvv hv.2
        · rfl
      have hc := (checkLR_none_iff p lcfg).mpr ⟨hrank, hv'⟩
      simp [solveLR, hc] at he
    · intro hv
      cases hcc : checkLR p lcfg with
      | none =>
        rcases (checkLR_none_iff p lcfg).mp hcc with ⟨h1, h2⟩
        rcases hv with hv | hv
        · omega
        · rw [h2] at hv; cases hv
      | some e => exact ⟨e, by simp [solveLR, hcc]⟩
  · constructor
    · rintro ⟨e, he⟩
      by_contra hv
      have hv' : validQuadratic qp = true := by
        cases hvv : validQuadratic qp
        · exact absurd hvv hv
        · rfl
      have hc := (checkQuadratic_none_iff qp).mpr hv'
      simp [solveGW, hc] at he
    · intro hv
      cases hcc : checkQuadratic qp with
      | none =>
        rw [(checkQuadratic_none_iff qp).mp hcc] at hv
        cases hv
      | some e => exact ⟨e, hg hcc gcfg⟩
  · intro hv cfg₂
    cases hcc : checkLinear p with
    | none =>
      rw [(checkLinear_none_iff p).mp hcc] at hv
      cases hv
    | some e => rw [hs hcc cfg, hs hcc cfg₂]
  · intro hv base₂
    cases hcc : checkLR p lcfg with
    | none =>
      rcases (checkLR_none_iff p lcfg).mp hcc with ⟨h1, h2⟩
      rcases hv with hv | hv
      · omega
      · rw [h2] at hv; cases hv
    | some e =>
      have hcc₂ : checkLR p { lcfg with base := base₂ } = some e := by
        unfold checkLR at hcc ⊢
        simpa using hcc
      rw [hl hcc _ hcc₂]
      simp [solveLR, hcc]
  · intro hv n₂ ic₂
    cases hcc : checkQuadratic qp with
    | none =>
      rw [(checkQuadratic_none_iff qp).mp hcc] at hv
      cases hv
    | some e => rw [hg hcc gcfg, hg hcc _]
  · intro hv
    have hc := (checkLinear_none_iff p).mpr hv
    refine ⟨(sinkLoopCb p cfg cb (ceilDiv cfg.maxIterations cfg.innerIterations)
      0 (sinkInit p)).2.1,
      (sinkLoopCb p cfg cb (ceilDiv cfg.maxIterations cfg.innerIterations)
      0 (sinkInit p)).2.2, ?_⟩
    simp [solveSinkhorn, hc, sinkLoopCb_fst]
  · intro s
    exact ⟨rfl, rfl, rfl⟩

/-- C3 witness: the validation theorem applied to a marginal summing to
zero (error raised, independent of the iteration budget), an invalid rank,
and a valid configuration (result returned). -/
theorem config_error_iff_invalid_witness :
    (∃ e, solveSinkhorn exPbad exCfg1 noProgress = .error e) ∧
    (solveSinkhorn exPbad exCfg1 noProgress =
      solveSinkhorn exPbad exCfg0 noProgress) ∧
    (∃ e, solveLR exP1 exLcfgBad noProgress = .error e) ∧
    (∃ evs obs, solveSinkhorn exP1 exCfg1 noProgress =
      .ok (outputOf exP1 (sinkLoop exP1 exCfg1
        (ceilDiv exCfg1.maxIterations exCfg1.innerIterations) (sinkInit exP1)),
        evs, obs)) := by
  have h1 := config_error_iff_invalid_and_nonconvergence_is_not_an_error
    noProgress exPbad exCfg1 exLcfg0 exQP0 exGcfg0
  have h2 := config_error_iff_invalid_and_nonconvergence_is_not_an_error
    noProgress exP1 exCfg1 exLcfgBad exQP0 exGcfg0
  have hbad : validLinear exPbad = false := by
    norm_num [validLinear, validMarginals, exPbad]
  have hgood : validLinear exP1 = true := by
    norm_num [validLinear, validMarginals, exP1]
  exact ⟨h1.1.mpr hbad, h1.2.2.2.1 hbad exCfg0,
    h2.2.1.mpr (Or.inl (by decide)), h2.2.2.2.2.2.2.1 hgood⟩

/-! ## Nonnegativity of couplings, plans and costs -/

theorem dotQ_nonneg {x y : List ℚ} (hx : vecNonneg x) (hy : vecNonneg y) :
    0 ≤ dotQ x y := by
  apply List.sum_nonneg
  intro q hq
  rcases mem_zipWith hq with ⟨a, ha, b, hb, rfl⟩
  exact mul_nonneg (hx a ha) (hy b hb)

theorem matVec_nonneg {M : List (List ℚ)} {v : List ℚ} (hM : matNonneg M)
    (hv : vecNonneg v) : vecNonneg (matVec M v) := by
  intro x hx
  rcases List.mem_map.mp hx with ⟨r, hr, rfl⟩
  exact dotQ_nonneg (hM r hr) hv

theorem divVec_nonneg {x y : List ℚ} (hx : vecNonneg x) (hy : vecNonneg y) :
    vecNonneg (divVec x y) := by
  intro q hq
  rcases mem_zipWith hq with ⟨a, ha, b, hb, rfl⟩
  exact div_nonneg (hx a ha) (hy b hb)

theorem vec_getD_nonneg {v : List ℚ} (hv : vecNonneg v) (j : ℕ) :
    0 ≤ v.getD j 0 := by
  by_cases h : j < v.length
  · rw [List.getD_eq_getElem _ _ h]
    exact hv _ (List.getElem_mem h)
  · rw [List.getD_eq_default _ _ (le_of_not_lt h)]

theorem mat_getD_nonneg {M : List (List ℚ)} (hM : matNonneg M) (i : ℕ) :
    vecNonneg (M.getD i []) := by
  by_cases h : i < M.length
  · rw [List.getD_eq_getElem _ _ h]
    exact hM _ (List.getElem_mem h)
  · rw [List.getD_eq_default _ _ (le_of_not_lt h)]
    intro x hx
    simp at hx

theorem entry_nonneg {M : List (List ℚ)} (hM : matNonneg M) (i j : ℕ) :
    0 ≤ entry M i j :=
  vec_getD_nonneg (mat_getD_nonneg hM i) j

theorem transposeQ_nonneg {M : List (List ℚ)} (hM : matNonneg M) :
    matNonneg (transposeQ M) := by
  intro r hr
  rcases List.mem_map.mp hr with ⟨j, _, rfl⟩
  intro x hx
  rcases List.mem_map.mp hx with ⟨row, hrow, rfl⟩
  exact vec_getD_nonneg (hM row hrow) j

theorem kernelOf_nonneg {p : LinearProblem} (hC : matNonneg p.C)
    (he : 0 < p.eps) : matNonneg (kernelOf p) := by
  intro r hr
  rcases List.mem_map.mp hr with ⟨row, hrow, rfl⟩
  intro x hx
  rcases List.mem_map.mp hx with ⟨c, hc, rfl⟩
  have h1 : 0 ≤ c / p.eps := div_nonneg (hC row hrow c hc) he.le
  have h2 : (0 : ℚ) < 1 + c / p.eps := by linarith
  exact div_nonneg zero_le_one h2.le

/-- Nonnegativity of the Sinkhorn scalings, preserved by the iteration. -/
def sinkNonneg (s : SinkhornState) : Prop := vecNonneg s.f ∧ vecNonneg s.g

theorem sinkhornUpdate_nonneg {p : LinearProblem} {s : SinkhornState}
    (hK : matNonneg (kernelOf p)) (ha : vecNonneg p.a) (hb : vecNonneg p.b)
    (hs : sinkNonneg s) : sinkNonneg (sinkhornUpdate p s) := by
  refine ⟨?_, ?_⟩
  · exact divVec_nonneg ha (matVec_nonneg hK hs.2)
  · exact divVec_nonneg hb (matVec_nonneg (transposeQ_nonneg hK)
      (divVec_nonneg ha (matVec_nonneg hK hs.2)))

theorem innerStep_nonneg {p : LinearProblem} {s : SinkhornState}
    (hK : matNonneg (kernelOf p)) (ha : vecNonneg p.a) (hb : vecNonneg p.b)
    (hs : sinkNonneg s) : sinkNonneg (innerStep p s) := by
  unfold innerStep
  by_cases h : s.converged
  · simpa [h] using hs
  · simpa [h] using sinkhornUpdate_nonneg hK ha hb hs

theorem iterate_innerStep_nonneg {p : LinearProblem}
    (hK : matNonneg (kernelOf p)) (ha : vecNonneg p.a) (hb : vecNonneg p.b) :
    ∀ (n : ℕ) (s : SinkhornState), sinkNonneg s →
      sinkNonneg ((innerStep p)^[n] s) := by
  intro n
  induction n with
  | zero => intro s hs; exact hs
  | succ m ih =>
    intro s hs
    rw [Function.iterate_succ_apply]
    exact ih _ (innerStep_nonneg hK ha hb hs)

theorem checkpointStep_nonneg {p : LinearProblem} {cfg : SinkhornConfig}
    {s : SinkhornState} (hK : matNonneg (kernelOf p)) (ha : vecNonneg p.a)
    (hb : vecNonneg p.b) (hs : sinkNonneg s) :
    sinkNonneg (checkpointStep p cfg s) := by
  unfold checkpointStep
  by_cases h : s.converged
  · simpa [h] using hs
  · simp only [if_neg h]
    exact ⟨(iterate_innerStep_nonneg hK ha hb _ s hs).1,
      (iterate_innerStep_nonneg hK ha hb _ s hs).2⟩

theorem sinkLoop_nonneg {p : LinearProblem} {cfg : SinkhornConfig}
    (hK : matNonneg (kernelOf p)) (ha : vecNonneg p.a) (hb : vecNonneg p.b) :
    ∀ (fuel : ℕ) (s : SinkhornState), sinkNonneg s →
      sinkNonneg (sinkLoop p cfg fuel s) := by
  intro fuel
  induction fuel with
  | zero => intro s hs; exact hs
  | succ n ih =>
    intro s hs
    simp only [sinkLoop]
    by_cases h : s.converged
    · simpa [h] using hs
    · simp only [if_neg h]
      exact ih _ (checkpointStep_nonneg hK ha hb hs)

theorem sinkInit_nonneg (p : LinearProblem) : sinkNonneg (sinkInit p) := by
  constructor <;> intro x hx <;>
    rw [List.eq_of_mem_replicate hx] <;> norm_num

theorem planOf_nonneg {p : LinearProblem} {s : SinkhornState}
    (hK : matNonneg (kernelOf p)) (hs : sinkNonneg s) :
    matNonneg (planOf p s) := by
  intro r hr
  rcases mem_zipWith hr with ⟨fi, hfi, row, hrow, rfl⟩
  intro x hx
  simp only [mulVec] at hx
  rcases mem_zipWith hx with ⟨u, hu, v, hv, rfl⟩
  rcases List.mem_map.mp hu with ⟨k, hk, rfl⟩
  exact mul_nonneg (mul_nonneg (hs.1 fi hfi) (hK row hrow k hk)) (hs.2 v hv)

theorem linCost_nonneg {qp : QuadraticProblem} {P : List (List ℚ)}
    (hP : matNonneg P) : matNonneg (linCost qp P) := by
  intro r hr
  rcases List.mem_map.mp hr with ⟨i, _, rfl⟩
  intro x hx
  rcases List.mem_map.mp hx with ⟨j, _, rfl⟩
  apply List.sum_nonneg
  intro q hq
  rcases List.mem_map.mp hq with ⟨k, _, rfl⟩
  apply List.sum_nonneg
  intro q2 hq2
  rcases List.mem_map.mp hq2 with ⟨l, _, rfl⟩
  exact mul_nonneg (sq_nonneg _) (entry_nonneg hP k l)

theorem gwObj_nonneg {qp : QuadraticProblem} {P : List (List ℚ)}
    (hP : matNonneg P) : 0 ≤ gwObj qp P := by
  apply List.sum_nonneg
  intro q hq
  rcases mem_zipWith hq with ⟨r, hr, r', hr', rfl⟩
  exact dotQ_nonneg (linCost_nonneg hP r hr) (hP r' hr')

theorem combo_nonneg {t : ℚ} {P P' : List (List ℚ)} (h0 : 0 ≤ t) (h1 : t ≤ 1)
    (hP : matNonneg P) (hP' : matNonneg P') : matNonneg (combo t P P') := by
  intro r hr
  rcases mem_zipWith hr with ⟨r1, hr1, r2, hr2, rfl⟩
  intro x hx
  rcases mem_zipWith hx with ⟨a, ha, b, hb, rfl⟩
  have ha' := hP r1 hr1 a ha
  have hb' := hP' r2 hr2 b hb
  have : (0 : ℚ) ≤ 1 - t := by linarith
  exact add_nonneg (mul_nonneg this ha') (mul_nonneg h0 hb')

theorem pickBestP_le {β : Type} (f : β → ℚ) :
    ∀ (cs : List β) (c0 : β), f (pickBestP f cs c0) ≤ f c0 := by
  intro cs
  induction cs with
  | nil => intro c0; simp [pickBestP]
  | cons c t ih =>
    intro c0
    have hb : f (if f c < f c0 then c else c0) ≤ f c0 := by
      by_cases h : f c < f c0 <;> simp [h]
      exact le_of_lt h
    exact le_trans (ih _) hb

theorem pickBestP_mem {β : Type} (f : β → ℚ) :
    ∀ (cs : List β) (c0 : β), pickBestP f cs c0 ∈ c0 :: cs := by
  intro cs
  induction cs with
  | nil => intro c0; simp [pickBestP]
  | cons c t ih =>
    intro c0
    have h := ih (if f c < f c0 then c else c0)
    rcases List.mem_cons.mp h with h1 | h1
    · show pickBestP f t _ ∈ _
      rw [h1]
      by_cases hc : f c < f c0 <;> simp [hc]
    · exact List.mem_cons_of_mem _ (List.mem_cons_of_mem _ h1)

theorem gwNextP_nonneg {qp : QuadraticProblem} {cfg : GWConfig}
    {P Pi : List (List ℚ)} (hP : matNonneg P) (hPi : matNonneg Pi) :
    matNonneg (gwNextP qp cfg P Pi) := by
  unfold gwNextP
  by_cases h : cfg.lineSearch
  · simp only [h, if_true]
    have hm := pickBestP_mem (gwObj qp) (lineCandidates P Pi) P
    rcases List.mem_cons.mp hm with h1 | h1
    · rw [h1]; exact hP
    · simp only [lineCandidates, List.mem_cons, List.not_mem_nil, or_false] at h1
      unfold lineCandidates
      rcases h1 with h1 | h1 | h1 | h1 <;> rw [h1]
      · exact combo_nonneg (by norm_num) (by norm_num) hP hPi
      · exact combo_nonneg (by norm_num) (by norm_num) hP hPi
      · exact combo_nonneg (by norm_num) (by norm_num) hP hPi
      · exact hPi
  · simp only [h, if_false]
    exact hPi

theorem gwNextP_le {qp : QuadraticProblem} {cfg : GWConfig}
    {P Pi : List (List ℚ)} (h : cfg.lineSearch = true) :
    gwObj qp (gwNextP qp cfg P Pi) ≤ gwObj qp P := by
  unfold gwNextP
  rw [h]
  simpa using pickBestP_le (gwObj qp) (lineCandidates P Pi) P

/-! ## The GW costs invariant -/

theorem validQuad_facts {qp : QuadraticProblem} (hv : validQuadratic qp = true) :
    vecNonneg qp.a ∧ vecNonneg qp.b ∧ 0 < qp.eps := by
  unfold validQuadratic validQuadMarginals at hv
  simp only [Bool.and_eq_true, List.all_eq_true, decide_eq_true_eq] at hv
  refine ⟨fun x hx => ?_, fun x hx => ?_, hv.2⟩
  · exact hv.1.1.1.1.1.1 x hx
  · exact hv.1.1.1.1.1.2 x hx

theorem gwInit_P_nonneg {qp : QuadraticProblem} {cfg : GWConfig}
    (ha : vecNonneg qp.a) (hb : vecNonneg qp.b) :
    matNonneg (gwInit qp cfg).P := by
  intro r hr
  rcases List.mem_map.mp hr with ⟨ai, hai, rfl⟩
  intro x hx
  rcases List.mem_map.mp hx with ⟨bj, hbj, rfl⟩
  exact mul_nonneg (ha ai hai) (hb bj hbj)

theorem set_append_len {α : Type} (w : List α) (x y : α) (t : List α) :
    (w ++ x :: t).set w.length y = w ++ y :: t := by
  induction w with
  | nil => rfl
  | cons a w ih => simp [List.set, ih]

theorem getD_append_len {α : Type} (w : List α) (c d : α) :
    (w ++ [c]).getD w.length d = c := by
  rw [List.getD_append_right _ _ _ _ (le_refl _)]
  simp

/-- The loop invariant of the GW outer iteration: the `costs` vector is a
written prefix (one entry per executed outer iteration) followed by
sentinel `-1` slots; written entries are nonnegative when the problem is
valid, the last written entry is the objective of the current coupling,
and (under the conditional-gradient configuration) the written prefix is
non-increasing. -/
def GWInv (qp : QuadraticProblem) (cfg : GWConfig) (s : GWState) : Prop :=
  ∃ w : List ℚ,
    s.costs = w ++ List.replicate (cfg.maxOuter - s.it) (-1) ∧
    w.length = s.it ∧
    s.it ≤ cfg.maxOuter ∧
    (validQuadratic qp = true → (matNonneg s.P ∧ ∀ c ∈ w, 0 ≤ c)) ∧
    (0 < s.it → w.getD (s.it - 1) 0 = gwObj qp s.P) ∧
    (cfg.lineSearch = true → ∀ i, i + 1 < w.length →
      w.getD (i + 1) 0 ≤ w.getD i 0) ∧
    s.linearConvergence.length = s.it

theorem gwInit_inv (qp : QuadraticProblem) (cfg : GWConfig) :
    GWInv qp cfg (gwInit qp cfg) := by
  refine ⟨[], ?_, rfl, Nat.zero_le _, ?_, ?_, ?_, rfl⟩
  · show (gwInit qp cfg).costs =
      [] ++ List.replicate (cfg.maxOuter - (gwInit qp cfg).it) (-1)
    simp [gwInit]
  · intro hv
    exact ⟨gwInit_P_nonneg (validQuad_facts hv).1 (validQuad_facts hv).2.1,
      by simp⟩
  · intro h0
    simp [gwInit] at h0
  · intro _ i hi
    simp at hi

theorem gwInnerPlan_nonneg {qp : QuadraticProblem} {cfg : GWConfig}
    {P : List (List ℚ)} (hP : matNonneg P) (ha : vecNonneg qp.a)
    (hb : vecNonneg qp.b) (he : 0 < qp.eps) :
    matNonneg (outputOf (gwInnerProblem qp P) (gwInnerRun qp cfg P)).plan := by
  have hK : matNonneg (kernelOf (gwInnerProblem qp P)) :=
    kernelOf_nonneg (linCost_nonneg hP) he
  have hs : sinkNonneg (gwInnerRun qp cfg P) :=
    sinkLoop_nonneg hK ha hb _ _ (sinkInit_nonneg _)
  exact planOf_nonneg hK hs

theorem gwOuterStep_unconverged (qp : QuadraticProblem) (cfg : GWConfig)
    (s : GWState) (hc : s.converged = false) :
    gwOuterStep qp cfg s =
      { P := gwNextP qp cfg s.P
          (outputOf (gwInnerProblem qp s.P) (gwInnerRun qp cfg s.P)).plan
        costs := s.costs.set s.it (gwObj qp (gwNextP qp cfg s.P
          (outputOf (gwInnerProblem qp s.P) (gwInnerRun qp cfg s.P)).plan))
        linearConvergence := s.linearConvergence ++
          [(outputOf (gwInnerProblem qp s.P) (gwInnerRun qp cfg s.P)).converged]
        lastErr := if cfg.storeInnerErrors
          then (outputOf (gwInnerProblem qp s.P) (gwInnerRun qp cfg s.P)).lastErr
          else -1
        it := s.it + 1
        converged := if s.it = 0 then false
          else relConverged cfg.outerThreshold (s.costs.getD (s.it - 1) (-1))
            (gwObj qp (gwNextP qp cfg s.P
              (outputOf (gwInnerProblem qp s.P) (gwInnerRun qp cfg s.P)).plan)) } := by
  simp [gwOuterStep, hc]

theorem gwOuterStep_inv {qp : QuadraticProblem} {cfg : GWConfig} {s : GWState}
    (hlt : s.it < cfg.maxOuter) (h : GWInv qp cfg s) :
    GWInv qp cfg (gwOuterStep qp cfg s) := by
  rcases h with ⟨w, hcosts, hlen, hle, hnn, hlast, hmono, hlc⟩
  cases hc : s.converged with
  | true =>
    have : gwOuterStep qp cfg s = s := by simp [gwOuterStep, hc]
    rw [this]
    exact ⟨w, hcosts, hlen, hle, hnn, hlast, hmono, hlc⟩
  | false =>
    rw [gwOuterStep_unconverged qp cfg s hc]
    set Pin := (outputOf (gwInnerProblem qp s.P) (gwInnerRun qp cfg s.P)).plan with hPin
    set newP := gwNextP qp cfg s.P Pin with hnewP
    set c := gwObj qp newP with hcdef
    refine ⟨w ++ [c], ?_, by simp [hlen], (show s.it + 1 ≤ cfg.maxOuter by omega),
      ?_, ?_, ?_, by simp [hlc]⟩
    · have hrep : List.replicate (cfg.maxOuter - s.it) (-1 : ℚ) =
          (-1 : ℚ) :: List.replicate (cfg.maxOuter - (s.it + 1)) (-1) := by
        have : cfg.maxOuter - s.it = (cfg.maxOuter - (s.it + 1)) + 1 := by omega
        rw [this, List.replicate_succ]
      show s.costs.set s.it c = (w ++ [c]) ++ _
      rw [hcosts, hrep, ← hlen, set_append_len]
      simp
    · intro hv
      rcases validQuad_facts hv with ⟨ha, hb, he⟩
      have hP : matNonneg s.P := (hnn hv).1
      have hPin' : matNonneg Pin := gwInnerPlan_nonneg hP ha hb he
      have hnew : matNonneg newP := gwNextP_nonneg hP hPin'
      refine ⟨hnew, ?_⟩
      intro x hx
      rcases List.mem_append.mp hx with hx | hx
      · exact (hnn hv).2 x hx
      · rw [List.mem_singleton.mp hx]
        exact gwObj_nonneg hnew
    · intro _
      show (w ++ [c]).getD (s.it + 1 - 1) 0 = gwObj qp newP
      have : s.it + 1 - 1 = w.length := by omega
      rw [this, getD_append_len]
    · intro hls i hi
      simp only [List.length_append, List.length_singleton] at hi
      by_cases hcase : i + 1 < w.length
      · have h1 : (w ++ [c]).getD (i + 1) 0 = w.getD (i + 1) 0 :=
          List.getD_append _ _ _ _ hcase
        have h2 : (w ++ [c]).getD i 0 = w.getD i 0 :=
          List.getD_append _ _ _ _ (by omega)
        rw [h1, h2]
        exact hmono hls i hcase
      · have hieq : i + 1 = w.length := by omega
        have hipos : 0 < s.it := by omega
        have h1 : (w ++ [c]).getD (i + 1) 0 = c := by
          rw [hieq]
          exact getD_append_len w c 0
        have h2 : (w ++ [c]).getD i 0 = w.getD i 0 :=
          List.getD_append _ _ _ _ (by omega)
        rw [h1, h2]
        have hcle : c ≤ gwObj qp s.P := gwNextP_le hls
        have hlast' := hlast hipos
        have heq : s.it - 1 = i := by omega
        rw [heq] at hlast'
        rw [← hlast'] at hcle
        exact hcle

theorem gwLoop_inv {qp : QuadraticProblem} {cfg : GWConfig} :
    ∀ (fuel : ℕ) (s : GWState), s.it + fuel ≤ cfg.maxOuter →
      GWInv qp cfg s → GWInv qp cfg (gwLoop qp cfg fuel s) := by
  intro fuel
  induction fuel with
  | zero => intro s _ h; exact h
  | succ n ih =>
    intro s hle h
    simp only [gwLoop]
    by_cases hc : s.converged
    · simp only [hc, if_true]
      exact h
    · simp only [hc, Bool.false_eq_true, if_false]
      have hcc : s.converged = false := by
        revert hc
        cases s.converged <;> simp
      have hstep : (gwOuterStep qp cfg s).it = s.it + 1 := by
        rw [gwOuterStep_unconverged qp cfg s hcc]
      apply ih
      · rw [hstep]
        omega
      · exact gwOuterStep_inv (by omega) h

/-- The final state of a GW solve (the loop run on the initial state for
the full outer budget). -/
def gwFinal (qp : QuadraticProblem) (cfg : GWConfig) : GWState :=
  gwLoop qp cfg cfg.maxOuter (gwInit qp cfg)

theorem gwFinal_inv (qp : QuadraticProblem) (cfg : GWConfig) :
    GWInv qp cfg (gwFinal qp cfg) :=
  gwLoop_inv cfg.maxOuter (gwInit qp cfg) (by simp [gwInit]) (gwInit_inv qp cfg)

theorem replicate_getD {α : Type} (n : ℕ) (a : α) (i : ℕ) :
    (List.replicate n a).getD i a = a := by
  by_cases h : i < n
  · rw [List.getD_eq_getElem _ _ (by simpa using h)]
    simp
  · rw [List.getD_eq_default _ _ (by simpa using Nat.le_of_not_lt h)]

theorem solveGW_valid {α : Type} (cb : ProgressCallback α)
    {qp : QuadraticProblem} (cfg : GWConfig) (hv : validQuadratic qp = true) :
    (solveGW qp cfg cb).toOption.map Prod.fst =
      some (gwOutputOf (gwFinal qp cfg)) := by
  have hc := (checkQuadratic_none_iff qp).mpr hv
  simp [solveGW, hc, Except.toOption, gwLoopCb_fst, gwFinal]

/-- C6: for every (valid) GW solve, `costs` holds a written value (≠ -1,
indeed ≥ 0) in exactly the slots of outer iterations that actually ran and
the sentinel `-1` in every slot at and after the first non-running one, so
the count of entries different from `-1` equals the number of outer
iterations that ran. -/
theorem gw_costs_sentinel_structure {α : Type} (cb : ProgressCallback α)
    (qp : QuadraticProblem) (cfg : GWConfig) (hv : validQuadratic qp = true) :
    (solveGW qp cfg cb).toOption.map Prod.fst =
      some (gwOutputOf (gwFinal qp cfg)) ∧
    (gwOutputOf (gwFinal qp cfg)).costs.length = cfg.maxOuter ∧
    (gwOutputOf (gwFinal qp cfg)).nOuter ≤ cfg.maxOuter ∧
    (∀ i, i < (gwOutputOf (gwFinal qp cfg)).nOuter →
      0 ≤ (gwOutputOf (gwFinal qp cfg)).costs.getD i (-1) ∧
      (gwOutputOf (gwFinal qp cfg)).costs.getD i (-1) ≠ -1) ∧
    (∀ i, (gwOutputOf (gwFinal qp cfg)).nOuter ≤ i →
      (gwOutputOf (gwFinal qp cfg)).costs.getD i (-1) = -1) ∧
    (gwOutputOf (gwFinal qp cfg)).costs.countP (fun c => !(c == -1)) =
      (gwOutputOf (gwFinal qp cfg)).nOuter := by
  rcases gwFinal_inv qp cfg with ⟨w, hcosts, hlen, hle, hnn, _, _, _⟩
  have houts : (gwOutputOf (gwFinal qp cfg)).costs = (gwFinal qp cfg).costs := rfl
  have houtn : (gwOutputOf (gwFinal qp cfg)).nOuter = (gwFinal qp cfg).it := rfl
  have hwnn : ∀ c ∈ w, 0 ≤ c := (hnn hv).2
  refine ⟨solveGW_valid cb cfg hv, ?_, ?_, ?_, ?_, ?_⟩
  · rw [houts, hcosts]
    simp [hlen]
    omega
  · rw [houtn]
    exact hle
  · intro i hi
    rw [houtn] at hi
    rw [houts, hcosts, List.getD_append _ _ _ _ (by omega)]
    have hiw : i < w.length := by omega
    have hmem : w.getD i (-1) ∈ w := by
      rw [List.getD_eq_getElem _ _ hiw]
      exact List.getElem_mem hiw
    have h0 : 0 ≤ w.getD i (-1) := hwnn _ hmem
    refine ⟨h0, fun he => ?_⟩
    rw [he] at h0
    linarith
  · intro i hi
    rw [houtn] at hi
    rw [houts, hcosts]
    by_cases hcase : i < w.length + (cfg.maxOuter - (gwFinal qp cfg).it)
    · rw [List.getD_append_right _ _ _ _ (by omega)]
      exact replicate_getD _ _ _
    · rw [List.getD_eq_default]
      simp only [List.length_append, List.length_replicate]
      omega
  · rw [houts, houtn, hcosts, List.countP_append]
    have h1 : w.countP (fun c => !(c == -1)) = w.length := by
      apply List.countP_eq_length.mpr
      intro a ha
      have h0 := hwnn a ha
      simp only [Bool.not_eq_true']
      rw [beq_eq_false_iff_ne]
      intro he
      rw [he] at h0
      linarith
    have h2 : (List.replicate (cfg.maxOuter - (gwFinal qp cfg).it)
        (-1 : ℚ)).countP (fun c => !(c == -1)) = 0 := by
      apply List.countP_eq_zero.mpr
      intro a ha
      rw [List.eq_of_mem_replicate ha]
      simp
    rw [h1, h2, hlen]
    omega

/-- C6 witness: the sentinel-structure theorem applied to a concrete valid
quadratic problem. -/
theorem gw_costs_sentinel_structure_witness :
    (solveGW exQP0 exGcfg0 noProgress).toOption.map Prod.fst =
      some (gwOutputOf (gwFinal exQP0 exGcfg0)) ∧
    (gwOutputOf (gwFinal exQP0 exGcfg0)).costs.length = exGcfg0.maxOuter ∧
    (gwOutputOf (gwFinal exQP0 exGcfg0)).costs.countP (fun c => !(c == -1)) =
      (gwOutputOf (gwFinal exQP0 exGcfg0)).nOuter := by
  have hv : validQuadratic exQP0 = true := by
    norm_num [validQuadratic, validQuadMarginals, squareOf, exQP0]
  have h := gw_costs_sentinel_structure noProgress exQP0 exGcfg0 hv
  exact ⟨h.1, h.2.1, h.2.2.2.2.2⟩

/-- C9: for every (valid) GW solve under the conditional-gradient
configuration, the `costs` sequence is non-increasing at every adjacent
pair of slots — in particular its valid (non-sentinel) prefix is
non-increasing across outer iterations, exactly (the numerical tolerance
of the spec is 0 over exact rationals). -/
theorem gw_costs_nonincreasing (qp : QuadraticProblem) (cfg : GWConfig)
    (hv : validQuadratic qp = true) (hls : cfg.lineSearch = true) :
    (∀ i, i + 1 < cfg.maxOuter →
      (gwFinal qp cfg).costs.getD (i + 1) (-1) ≤
        (gwFinal qp cfg).costs.getD i (-1)) ∧
    (∀ i, i + 1 < (gwOutputOf (gwFinal qp cfg)).nOuter →
      (gwOutputOf (gwFinal qp cfg)).costs.getD (i + 1) (-1) ≤
        (gwOutputOf (gwFinal qp cfg)).costs.getD i (-1)) := by
  rcases gwFinal_inv qp cfg with ⟨w, hcosts, hlen, hle, hnn, _, hmono, _⟩
  have hwnn : ∀ c ∈ w, 0 ≤ c := (hnn hv).2
  have hget : ∀ i, i < w.length → (gwFinal qp cfg).costs.getD i (-1) = w.getD i (-1) := by
    intro i hi
    rw [hcosts, List.getD_append _ _ _ _ hi]
  have hgetw : ∀ i, i < w.length → w.getD i (-1) = w.getD i 0 := by
    intro i hi
    rw [List.getD_eq_getElem _ _ hi, List.getD_eq_getElem _ _ hi]
  have hsent : ∀ i, w.length ≤ i → i < cfg.maxOuter →
      (gwFinal qp cfg).costs.getD i (-1) = -1 := by
    intro i h1 h2
    rw [hcosts, List.getD_append_right _ _ _ _ h1]
    exact replicate_getD _ _ _
  have hmain : ∀ i, i + 1 < cfg.maxOuter →
      (gwFinal qp cfg).costs.getD (i + 1) (-1) ≤
        (gwFinal qp cfg).costs.getD i (-1) := by
    intro i hi
    by_cases h1 : i + 1 < w.length
    · rw [hget _ h1, hget _ (by omega), hgetw _ h1, hgetw _ (by omega)]
      exact hmono hls i h1
    · rw [hsent _ (by omega) hi]
      by_cases h2 : i < w.length
      · rw [hget _ h2]
        have hmem : w.getD i (-1) ∈ w := by
          rw [List.getD_eq_getElem _ _ h2]
          exact List.getElem_mem h2
        have := hwnn _ hmem
        linarith
      · rw [hsent _ (by omega) (by omega)]
  refine ⟨hmain, ?_⟩
  intro i hi
  have hi' : i + 1 < cfg.maxOuter := by
    have : (gwOutputOf (gwFinal qp cfg)).nOuter = (gwFinal qp cfg).it := rfl
    omega
  exact hmain i hi'

/-- C9 witness: the monotonicity theorem applied to a concrete valid
problem under the line-search configuration, at the first adjacent pair. -/
theorem gw_costs_nonincreasing_witness :
    (gwFinal exQP0 exGcfg0).costs.getD 1 (-1) ≤
      (gwFinal exQP0 exGcfg0).costs.getD 0 (-1) := by
  have hv : validQuadratic exQP0 = true := by
    norm_num [validQuadratic, validQuadMarginals, squareOf, exQP0]
  exact (gw_costs_nonincreasing exQP0 exGcfg0 hv rfl).1 0 (by decide)

/-- C7: if the inner Sinkhorn solve of an outer GW iteration fails to
converge, the outer loop does not abort: it performs the step anyway,
adopting the (possibly poor) returned plan, records that iteration's
inner-convergence flag (false on failure) in `linearConvergence`, advances
the outer counter, retains the inner error when `store_inner_errors` is
set, and the overall `converged` flag of the output is false whenever the
last recorded inner flag is false. -/
theorem gw_inner_nonconvergence_does_not_abort (qp : QuadraticProblem)
    (cfg : GWConfig) (s : GWState) (h : s.converged = false) :
    (∀ fuel, gwLoop qp cfg (fuel + 1) s =
      gwLoop qp cfg fuel (gwOuterStep qp cfg s)) ∧
    (gwOuterStep qp cfg s).linearConvergence = s.linearConvergence ++
      [(outputOf (gwInnerProblem qp s.P) (gwInnerRun qp cfg s.P)).converged] ∧
    (gwOuterStep qp cfg s).P = gwNextP qp cfg s.P
      (outputOf (gwInnerProblem qp s.P) (gwInnerRun qp cfg s.P)).plan ∧
    (gwOuterStep qp cfg s).it = s.it + 1 ∧
    (cfg.storeInnerErrors = true → (gwOuterStep qp cfg s).lastErr =
      (outputOf (gwInnerProblem qp s.P) (gwInnerRun qp cfg s.P)).lastErr) ∧
    (∀ s' : GWState, (s'.linearConvergence.getLast?).getD true = false →
      (gwOutputOf s').converged = false) := by
  refine ⟨?_, ?_, ?_, ?_, ?_, ?_⟩
  · intro fuel
    simp [gwLoop, h]
  · rw [gwOuterStep_unconverged qp cfg s h]
  · rw [gwOuterStep_unconverged qp cfg s h]
  · rw [gwOuterStep_unconverged qp cfg s h]
  · intro hst
    rw [gwOuterStep_unconverged qp cfg s h]
    simp [hst]
  · intro s' hlast
    simp [gwOutputOf, hlast]

/-- C7 witness: the theorem applied to the initial state of a concrete
solve whose inner threshold 0 makes the inner Sinkhorn solve fail, plus a
concrete check that a false last inner flag forces `converged = false`. -/
theorem gw_inner_nonconvergence_witness :
    (gwOuterStep exQP0 exGcfgNC (gwInit exQP0 exGcfgNC)).linearConvergence =
      (gwInit exQP0 exGcfgNC).linearConvergence ++
      [(outputOf (gwInnerProblem exQP0 (gwInit exQP0 exGcfgNC).P)
        (gwInnerRun exQP0 exGcfgNC (gwInit exQP0 exGcfgNC).P)).converged] ∧
    (gwOuterStep exQP0 exGcfgNC (gwInit exQP0 exGcfgNC)).it =
      (gwInit exQP0 exGcfgNC).it + 1 ∧
    (gwOutputOf ⟨[], List.replicate 2 (-1), [false], -1, 1, true⟩).converged
      = false := by
  have h := gw_inner_nonconvergence_does_not_abort exQP0 exGcfgNC
    (gwInit exQP0 exGcfgNC) rfl
  exact ⟨h.2.1, h.2.2.2.1, h.2.2.2.2.2 _ (by decide)⟩

theorem gwLoopCb_events_getD {α : Type} (qp : QuadraticProblem)
    (cfg : GWConfig) (cb : ProgressCallback α) (d : Event) :
    ∀ fuel s i, i < (gwLoopCb qp cfg cb fuel s).2.1.length →
      (gwLoopCb qp cfg cb fuel s).2.1.getD i d =
        ⟨((gwOuterStep qp cfg)^[i] s).it + 1, 1, cfg.maxOuter,
          .gw ((gwOuterStep qp cfg)^[i] s)⟩ := by
  intro fuel
  induction fuel with
  | zero => intro s i h; simp [gwLoopCb] at h
  | succ n ih =>
    intro s i h
    by_cases hc : s.converged
    · simp [gwLoopCb, hc] at h
    · simp only [gwLoopCb, if_neg hc] at h ⊢
      cases i with
      | zero => simp
      | succ j =>
        simp only [List.getD_cons_succ]
        rw [ih (gwOuterStep qp cfg s) j (Nat.lt_of_succ_lt_succ (by simpa using h))]
        rw [← Function.iterate_succ_apply]

theorem gwLoopCb_events_pos {α : Type} (qp : QuadraticProblem)
    (cfg : GWConfig) (cb : ProgressCallback α) (fuel : ℕ) (s : GWState)
    (hf : 0 < fuel) (hc : s.converged = false) :
    0 < (gwLoopCb qp cfg cb fuel s).2.1.length := by
  cases fuel with
  | zero => omega
  | succ n => simp [gwLoopCb, hc]

/-- C10: for every (valid) GW solve with a progress callback, the first
invocation (outer iteration 1) observes the initial state, whose recorded
error is the sentinel `-1.0` — no error has been recorded yet; each later
invocation `i` observes the state after `i` outer steps, whose recorded
error is the inner error of the step that produced it (when
`store_inner_errors` is set; the sentinel otherwise). -/
theorem gw_first_callback_reports_sentinel {α : Type}
    (cb : ProgressCallback α) (qp : QuadraticProblem) (cfg : GWConfig)
    (d : Event) (hv : validQuadratic qp = true) (h1 : 1 ≤ cfg.maxOuter) :
    (solveGW qp cfg cb).toOption.map (fun r => r.2.1) =
      some ((gwLoopCb qp cfg cb cfg.maxOuter (gwInit qp cfg)).2.1) ∧
    0 < (gwLoopCb qp cfg cb cfg.maxOuter (gwInit qp cfg)).2.1.length ∧
    (gwLoopCb qp cfg cb cfg.maxOuter (gwInit qp cfg)).2.1.getD 0 d =
      ⟨1, 1, cfg.maxOuter, .gw (gwInit qp cfg)⟩ ∧
    (gwInit qp cfg).lastErr = -1 ∧
    (∀ i, i < (gwLoopCb qp cfg cb cfg.maxOuter (gwInit qp cfg)).2.1.length →
      (gwLoopCb qp cfg cb cfg.maxOuter (gwInit qp cfg)).2.1.getD i d =
        ⟨((gwOuterStep qp cfg)^[i] (gwInit qp cfg)).it + 1, 1, cfg.maxOuter,
          .gw ((gwOuterStep qp cfg)^[i] (gwInit qp cfg))⟩) ∧
    (∀ s : GWState, s.converged = false → (gwOuterStep qp cfg s).lastErr =
      (if cfg.storeInnerErrors = true
        then (outputOf (gwInnerProblem qp s.P) (gwInnerRun qp cfg s.P)).lastErr
        else -1)) := by
  have hc := (checkQuadratic_none_iff qp).mpr hv
  have hpos := gwLoopCb_events_pos qp cfg cb cfg.maxOuter (gwInit qp cfg)
    (by omega) rfl
  refine ⟨?_, hpos, ?_, rfl, ?_, ?_⟩
  · simp [solveGW, hc, Except.toOption]
  · rw [gwLoopCb_events_getD qp cfg cb d cfg.maxOuter (gwInit qp cfg) 0 hpos]
    simp [gwInit]
  · exact gwLoopCb_events_getD qp cfg cb d cfg.maxOuter (gwInit qp cfg)
  · intro s hs
    rw [gwOuterStep_unconverged qp cfg s hs]

/-- C10 witness: a concrete valid GW solve whose first callback event
carries the initial state with error sentinel `-1`. -/
theorem gw_first_callback_reports_sentinel_witness :
    0 < (gwLoopCb exQP0 exGcfg0 noProgress exGcfg0.maxOuter
      (gwInit exQP0 exGcfg0)).2.1.length ∧
    (gwLoopCb exQP0 exGcfg0 noProgress exGcfg0.maxOuter
      (gwInit exQP0 exGcfg0)).2.1.getD 0 ⟨0, 0, 0, .gw (gwInit exQP0 exGcfg0)⟩ =
      ⟨1, 1, exGcfg0.maxOuter, .gw (gwInit exQP0 exGcfg0)⟩ ∧
    (gwInit exQP0 exGcfg0).lastErr = -1 := by
  have hv : validQuadratic exQP0 = true := by
    norm_num [validQuadratic, validQuadMarginals, squareOf, exQP0]
  have h := gw_first_callback_reports_sentinel noProgress exQP0 exGcfg0
    ⟨0, 0, 0, .gw (gwInit exQP0 exGcfg0)⟩ hv (by decide)
  exact ⟨h.2.1, h.2.2.1, h.2.2.2.1⟩

/-- The event stream of a solve (empty when the solve errored). -/
def solveEvents {α : Type} (x : Except ConfigError (Output × List Event × List α)) :
    List Event :=
  match x with
  | .error _ => []
  | .ok r => r.2.1

/-- The reported checkpoint count of a solve (0 when the solve errored). -/
def solveIters {α : Type} (x : Except ConfigError (Output × List Event × List α)) :
    ℕ :=
  match x with
  | .error _ => 0
  | .ok r => r.1.nIters

/-- C4 (amended): for every Sinkhorn solve with a progress callback, the
callback is invoked exactly once per executed error checkpoint — the same
cadence as the error check, so the invocation count equals the reported
checkpoint count and is at most `⌈T/k⌉`, the loop (and hence the
reporting) stopping at natural convergence rather than continuing to
`⌈T/k⌉` — and the `iteration` argument is `min((i+1)·k, T)` at the `i`-th
invocation, hence non-decreasing and bounded by `T`. -/
theorem sinkhorn_callback_cadence {α : Type} (cb : ProgressCallback α)
    (p : LinearProblem) (cfg : SinkhornConfig) (d : Event) :
    (solveEvents (solveSinkhorn p cfg cb)).length ≤
      ceilDiv cfg.maxIterations cfg.innerIterations ∧
    (∀ i, i < (solveEvents (solveSinkhorn p cfg cb)).length →
      ((solveEvents (solveSinkhorn p cfg cb)).getD i d).iteration =
        min ((i + 1) * cfg.innerIterations) cfg.maxIterations) ∧
    (∀ i j, i ≤ j → j < (solveEvents (solveSinkhorn p cfg cb)).length →
      ((solveEvents (solveSinkhorn p cfg cb)).getD i d).iteration ≤
        ((solveEvents (solveSinkhorn p cfg cb)).getD j d).iteration) ∧
    (∀ i, i < (solveEvents (solveSinkhorn p cfg cb)).length →
      ((solveEvents (solveSinkhorn p cfg cb)).getD i d).iteration ≤
        cfg.maxIterations) ∧
    solveIters (solveSinkhorn p cfg cb) =
      (solveEvents (solveSinkhorn p cfg cb)).length := by
  cases hc : checkLinear p with
  | some e =>
    have hev : solveEvents (solveSinkhorn p cfg cb) = [] := by
      simp [solveEvents, solveSinkhorn, hc]
    have hit : solveIters (solveSinkhorn p cfg cb) = 0 := by
      simp [solveIters, solveSinkhorn, hc]
    rw [hev, hit]
    simp
  | none =>
    have hev : solveEvents (solveSinkhorn p cfg cb) =
        (sinkLoopCb p cfg cb (ceilDiv cfg.maxIterations cfg.innerIterations)
          0 (sinkInit p)).2.1 := by
      simp [solveEvents, solveSinkhorn, hc]
    have hit : solveIters (solveSinkhorn p cfg cb) =
        (sinkLoopCb p cfg cb (ceilDiv cfg.maxIterations cfg.innerIterations)
          0 (sinkInit p)).1.errors.length := by
      simp [solveIters, solveSinkhorn, hc, outputOf]
    have hchar := sinkLoopCb_events_iteration p cfg cb d
      (ceilDiv cfg.maxIterations cfg.innerIterations) 0 (sinkInit p)
    simp only [Nat.zero_add] at hchar
    refine ⟨?_, ?_, ?_, ?_, ?_⟩
    · rw [hev]
      exact sinkLoopCb_events_length_le p cfg cb _ 0 (sinkInit p)
    · intro i hi
      rw [hev] at hi ⊢
      exact hchar i hi
    · intro i j hij hj
      rw [hev] at hj ⊢
      rw [hchar i (by omega), hchar j hj]
      exact min_le_min (Nat.mul_le_mul_right _ (by omega)) (le_refl _)
    · intro i hi
      rw [hev] at hi ⊢
      rw [hchar i hi]
      exact min_le_right _ _
    · rw [hev, hit, sinkLoopCb_errors_length]
      simp [sinkInit]

theorem sinkInit_exP0 : sinkInit exP0 = ⟨[1], [1], [], false, 0⟩ := by
  norm_num [sinkInit, exP0, List.replicate]

theorem checkpointStep_exP0 :
    checkpointStep exP0 exCfg0 (⟨[1], [1], [], false, 0⟩ : SinkhornState) =
      ⟨[1], [1], [0], true, 1⟩ := by
  norm_num [checkpointStep, exCfg0, exP0, innerStep, sinkhornUpdate,
    marginalError, kernelOf, transposeQ, divVec, matVec, mulVec, dotQ, l1dist,
    List.range_succ, List.range_zero, Function.iterate_one]

/-- C4 counterexample: a valid 1×1 Sinkhorn solve with budget `T = 5` and
cadence `k = 1` converges at the first checkpoint; the callback is invoked
once, not `⌈T/k⌉ = 5` times (nor `5 + 1`): invocation stops at natural
convergence, refuting the claimed exact count. -/
theorem sinkhorn_callback_count_counterexample :
    (solveEvents (solveSinkhorn exP0 exCfg0 noProgress)).length = 1 ∧
    ceilDiv exCfg0.maxIterations exCfg0.innerIterations = 5 ∧
    (solveEvents (solveSinkhorn exP0 exCfg0 noProgress)).length ≠
      ceilDiv exCfg0.maxIterations exCfg0.innerIterations ∧
    (solveEvents (solveSinkhorn exP0 exCfg0 noProgress)).length ≠
      ceilDiv exCfg0.maxIterations exCfg0.innerIterations + 1 := by
  have hval : validLinear exP0 = true := by
    norm_num [validLinear, validMarginals, exP0]
  have hc : checkLinear exP0 = none := (checkLinear_none_iff exP0).mpr hval
  have hfuel : ceilDiv exCfg0.maxIterations exCfg0.innerIterations = 5 := by
    decide
  have hlen : (solveEvents (solveSinkhorn exP0 exCfg0 noProgress)).length = 1 := by
    simp only [solveEvents, solveSinkhorn, hc, hfuel, sinkInit_exP0]
    simp only [sinkLoopCb, checkpointStep_exP0]
    norm_num
  refine ⟨hlen, hfuel, ?_, ?_⟩
  · rw [hlen, hfuel]
    omega
  · rw [hlen, hfuel]
    omega

end OTT
